import Mathlib

/-!
Quilt: byte-order conversion primitives (`include/types.h`)

Shallow embedding of `Swap16`, `Swap32` and `SwapF32`.

* `u16` / `u32` values are natural numbers below `2 ^ 16` / `2 ^ 32`; every place
  where the C++ arithmetic wraps or truncates carries an explicit `%`.
* A `float` object is modelled by its four storage bytes (`F32`); `std::memcpy`
  between a `float` and a `u32` copies those bytes, and a `u32` is read from /
  written to its storage bytes in the byte order of the host (`Endian`).
* `SwapF32` returns its `float` by value.  How the calling convention carries that
  value back is a parameter (`FloatRet`): bit for bit (an SSE register, as on
  x86-64), or through the x87 register stack (the i386 ABI), where loading a
  signalling NaN sets its quiet bit.  The `float` argument arrives in memory and
  is read by `memcpy`, byte for byte.
-/

namespace Quilt

/-! ## Scalar operations -/

/-- `static u16 Swap16(u16 value) { return (value << 8) | (value >> 8); }`

`value` is promoted to `int` before the shifts, so neither shift wraps; the
conversion of the result back to `u16` on return reduces it modulo `2 ^ 16`. -/
def Swap16 (value : Nat) : Nat :=
  ((value <<< 8) ||| (value >>> 8)) % 2 ^ 16

/-- `static u32 Swap32(u32 value)`: four masked shifts, or-ed together.  The left
shifts are done in `u32`, hence reduced modulo `2 ^ 32` before masking. -/
def Swap32 (value : Nat) : Nat :=
  ((value >>> 24) &&& 0x000000FF) |||
  ((value >>> 8) &&& 0x0000FF00) |||
  (((value <<< 8) % 2 ^ 32) &&& 0x00FF0000) |||
  (((value <<< 24) % 2 ^ 32) &&& 0xFF000000)

/-- Byte `i` of `x`, counting from the least significant byte. -/
def byteOf (i x : Nat) : Nat :=
  (x >>> (8 * i)) &&& 0xFF

/-! ## Storage bytes and `memcpy` -/

/-- Byte order of the host. -/
inductive Endian where
  | little
  | big
deriving DecidableEq, Repr

/-- Four bytes of storage, in increasing address order. -/
structure Bytes4 where
  b0 : Fin 256
  b1 : Fin 256
  b2 : Fin 256
  b3 : Fin 256
deriving DecidableEq, Repr

/-- A `float` (`f32`) object, given by its storage. -/
structure F32 where
  mem : Bytes4
deriving DecidableEq, Repr

/-- The `u32` held by four bytes of storage on a host of byte order `e`. -/
def loadU32 (e : Endian) (m : Bytes4) : Nat :=
  match e with
  | Endian.little => m.b0.val + 2 ^ 8 * m.b1.val + 2 ^ 16 * m.b2.val + 2 ^ 24 * m.b3.val
  | Endian.big => m.b3.val + 2 ^ 8 * m.b2.val + 2 ^ 16 * m.b1.val + 2 ^ 24 * m.b0.val

/-- The storage bytes of the `u32` `v` on a host of byte order `e`. -/
def storeU32 (e : Endian) (v : Nat) : Bytes4 :=
  match e with
  | Endian.little =>
      ⟨Fin.ofNat (v % 256), Fin.ofNat (v / 2 ^ 8 % 256),
       Fin.ofNat (v / 2 ^ 16 % 256), Fin.ofNat (v / 2 ^ 24 % 256)⟩
  | Endian.big =>
      ⟨Fin.ofNat (v / 2 ^ 24 % 256), Fin.ofNat (v / 2 ^ 16 % 256),
       Fin.ofNat (v / 2 ^ 8 % 256), Fin.ofNat (v % 256)⟩

/-- The bit pattern of a `float`: its storage read as a `u32`. -/
def F32.toBits (e : Endian) (f : F32) : Nat :=
  loadU32 e f.mem

/-- The `float` whose bit pattern is `b`. -/
def F32.ofBits (e : Endian) (b : Nat) : F32 :=
  ⟨storeU32 e b⟩

/-- How the calling convention carries a `float` return value to the caller. -/
inductive FloatRet where
  /-- In an SSE register (x86-64) or any other bit-preserving way. -/
  | bitExact
  /-- In `st(0)` of the x87 register stack (i386 ABI). -/
  | x87
deriving DecidableEq, Repr

/-- A single-precision signalling NaN: exponent field all ones, fraction non-zero,
quiet bit (bit 22) clear. -/
def isSignallingNaN (b : Nat) : Bool :=
  ((b >>> 23) &&& 0xFF == 0xFF) && (b &&& 0x007FFFFF != 0) && (b &&& 0x00400000 == 0)

/-- Bit pattern of a `float` after an x87 load and store (`fld` / `fstp`): a
signalling NaN comes back with its quiet bit set, every other pattern unchanged. -/
def x87LoadStore (b : Nat) : Nat :=
  if isSignallingNaN b then b ||| 0x00400000 else b

/-- The `float` the caller receives from `return f;`. -/
def returnF32 (abi : FloatRet) (e : Endian) (f : F32) : F32 :=
  match abi with
  | FloatRet.bitExact => f
  | FloatRet.x87 => F32.ofBits e (x87LoadStore (F32.toBits e f))

/-- `static f32 SwapF32(float value)`:
```
u32 intval;
std::memcpy(&intval, &value, sizeof(float));
intval = Swap32(intval);
float result;
std::memcpy(&result, &intval, sizeof(float));
return result;
``` -/
def SwapF32 (abi : FloatRet) (e : Endian) (value : F32) : F32 :=
  let intval := loadU32 e value.mem
  let intval := Swap32 intval
  let result : F32 := ⟨storeU32 e intval⟩
  returnF32 abi e result

/-- Bit pattern received by the caller when a `float` of bit pattern `b` is
returned. -/
def retBits (abi : FloatRet) (b : Nat) : Nat :=
  match abi with
  | FloatRet.bitExact => b
  | FloatRet.x87 => x87LoadStore b

/-- IEEE-754 single-precision bit pattern built from its sign, biased exponent
and fraction fields. -/
def ieee754Bits (sign expo frac : Nat) : Nat :=
  (sign <<< 31) ||| (expo <<< 23) ||| frac

/-- The literal `1.0f`: sign `0`, biased exponent `127`, fraction `0`. -/
def oneF32 (e : Endian) : F32 :=
  F32.ofBits e (ieee754Bits 0 127 0)

/-! ## From bit operations to arithmetic -/

theorem byteOf_eq (i x : Nat) : byteOf i x = x / 2 ^ (8 * i) % 256 := by
  unfold byteOf
  rw [Nat.shiftRight_eq_div_pow]
  exact Nat.and_pow_two_sub_one_eq_mod _ 8

/-- Masking with a byte-wide mask placed at bit `k`. -/
theorem and_byte_mask (y k : Nat) :
    y &&& (0xFF <<< k) = (y / 2 ^ k % 256) <<< k := by
  apply Nat.eq_of_testBit_eq
  intro j
  have h255 : (0xFF : Nat) = 2 ^ 8 - 1 := by norm_num
  have h256 : (256 : Nat) = 2 ^ 8 := by norm_num
  rw [h255, h256, ← Nat.shiftRight_eq_div_pow]
  simp only [Nat.testBit_and, Nat.testBit_shiftLeft, Nat.testBit_two_pow_sub_one,
    Nat.testBit_mod_two_pow, Nat.testBit_shiftRight]
  by_cases hj : k ≤ j
  · have : k + (j - k) = j := by omega
    simp [hj, this, Bool.and_comm]
  · simp [hj]

/-- Or-ing a value that fits below bit `k` with one placed at bit `k` adds them. -/
theorem or_shiftLeft_eq_add {a k : Nat} (ha : a < 2 ^ k) (b : Nat) :
    a ||| (b <<< k) = a + 2 ^ k * b := by
  rw [Nat.shiftLeft_eq, Nat.mul_comm b, Nat.or_comm, Nat.add_comm]
  exact (Nat.mul_add_lt_is_or ha b).symm

/-- Arithmetic form of `Swap32`: the four bytes of `x`, in reverse order. -/
theorem Swap32_eq_bytes (x : Nat) :
    Swap32 x = x / 2 ^ 24 % 256 + 2 ^ 8 * (x / 2 ^ 16 % 256)
      + 2 ^ 16 * (x / 2 ^ 8 % 256) + 2 ^ 24 * (x % 256) := by
  have m0 : (0x000000FF : Nat) = 0xFF <<< 0 := by decide
  have m1 : (0x0000FF00 : Nat) = 0xFF <<< 8 := by decide
  have m2 : (0x00FF0000 : Nat) = 0xFF <<< 16 := by decide
  have m3 : (0xFF000000 : Nat) = 0xFF <<< 24 := by decide
  unfold Swap32
  rw [m0, m1, m2, m3]
  simp only [and_byte_mask, Nat.shiftRight_eq_div_pow, Nat.shiftLeft_eq x]
  have e0 : x / 2 ^ 24 / 2 ^ 0 % 256 = x / 2 ^ 24 % 256 := by simp
  have e1 : x / 2 ^ 8 / 2 ^ 8 % 256 = x / 2 ^ 16 % 256 := by omega
  have e2 : x * 2 ^ 8 % 2 ^ 32 / 2 ^ 16 % 256 = x / 2 ^ 8 % 256 := by omega
  have e3 : x * 2 ^ 24 % 2 ^ 32 / 2 ^ 24 % 256 = x % 256 := by omega
  rw [e0, e1, e2, e3, Nat.shiftLeft_zero]
  have s1 : x / 2 ^ 24 % 256 ||| (x / 2 ^ 16 % 256) <<< 8
      = x / 2 ^ 24 % 256 + 2 ^ 8 * (x / 2 ^ 16 % 256) :=
    or_shiftLeft_eq_add (by omega) _
  rw [s1]
  have s2 : x / 2 ^ 24 % 256 + 2 ^ 8 * (x / 2 ^ 16 % 256) ||| (x / 2 ^ 8 % 256) <<< 16
      = x / 2 ^ 24 % 256 + 2 ^ 8 * (x / 2 ^ 16 % 256) + 2 ^ 16 * (x / 2 ^ 8 % 256) :=
    or_shiftLeft_eq_add (by omega) _
  rw [s2]
  exact or_shiftLeft_eq_add (by omega) _

/-- Arithmetic form of `Swap16`: the two bytes of `x`, exchanged. -/
theorem Swap16_eq_bytes (x : Nat) (hx : x < 2 ^ 16) :
    Swap16 x = x / 2 ^ 8 + 2 ^ 8 * (x % 256) := by
  unfold Swap16
  rw [Nat.or_comm, Nat.shiftRight_eq_div_pow,
    or_shiftLeft_eq_add (by omega)]
  omega

theorem Swap32_lt (x : Nat) : Swap32 x < 2 ^ 32 := by
  rw [Swap32_eq_bytes]; omega

theorem Swap16_lt (x : Nat) : Swap16 x < 2 ^ 16 := by
  unfold Swap16; omega

/-- Bit `j` of byte `i` of `y` is bit `8 * i + j` of `y`. -/
theorem testBit_byteOf (i y j : Nat) (hj : j < 8) :
    (byteOf i y).testBit j = y.testBit (8 * i + j) := by
  unfold byteOf
  have h255 : (0xFF : Nat) = 2 ^ 8 - 1 := by norm_num
  rw [h255, Nat.testBit_and, Nat.testBit_shiftRight, Nat.testBit_two_pow_sub_one]
  simp [hj]

/-! ## Storage round trips -/

theorem loadU32_storeU32 (e : Endian) (v : Nat) (hv : v < 2 ^ 32) :
    loadU32 e (storeU32 e v) = v := by
  cases e <;> simp only [loadU32, storeU32, Fin.ofNat, Fin.val_mk] <;> omega

theorem storeU32_loadU32 (e : Endian) (m : Bytes4) :
    storeU32 e (loadU32 e m) = m := by
  obtain ⟨⟨a, ha⟩, ⟨b, hb⟩, ⟨c, hc⟩, ⟨d, hd⟩⟩ := m
  cases e <;> simp only [loadU32, storeU32, Fin.ofNat, Bytes4.mk.injEq, Fin.mk.injEq] <;>
    omega

theorem loadU32_lt (e : Endian) (m : Bytes4) : loadU32 e m < 2 ^ 32 := by
  obtain ⟨⟨a, ha⟩, ⟨b, hb⟩, ⟨c, hc⟩, ⟨d, hd⟩⟩ := m
  cases e <;> simp only [loadU32] <;> omega

/-- Reading back the bytes of a value assembled from four bytes. -/
theorem bytes_of_pack (a b c d : Nat) (ha : a < 256) (hb : b < 256) (hc : c < 256)
    (hd : d < 256) :
    (a + 2 ^ 8 * b + 2 ^ 16 * c + 2 ^ 24 * d) % 256 = a ∧
    (a + 2 ^ 8 * b + 2 ^ 16 * c + 2 ^ 24 * d) / 2 ^ 8 % 256 = b ∧
    (a + 2 ^ 8 * b + 2 ^ 16 * c + 2 ^ 24 * d) / 2 ^ 16 % 256 = c ∧
    (a + 2 ^ 8 * b + 2 ^ 16 * c + 2 ^ 24 * d) / 2 ^ 24 % 256 = d := by
  refine ⟨by omega, by omega, by omega, by omega⟩

/-- Involution in arithmetic form, shared by the integer and float results. -/
theorem Swap32_Swap32 (x : Nat) (hx : x < 2 ^ 32) : Swap32 (Swap32 x) = x := by
  have h0 : x % 256 < 256 := by omega
  have h1 : x / 2 ^ 8 % 256 < 256 := by omega
  have h2 : x / 2 ^ 16 % 256 < 256 := by omega
  have h3 : x / 2 ^ 24 % 256 < 256 := by omega
  obtain ⟨p0, p1, p2, p3⟩ := bytes_of_pack _ _ _ _ h3 h2 h1 h0
  rw [Swap32_eq_bytes (Swap32 x), Swap32_eq_bytes x, p0, p1, p2, p3]
  clear p0 p1 p2 p3
  omega

theorem Swap16_Swap16 (x : Nat) (hx : x < 2 ^ 16) : Swap16 (Swap16 x) = x := by
  rw [Swap16_eq_bytes (Swap16 x) (Swap16_lt x), Swap16_eq_bytes x hx]
  omega

theorem byteOf_zero (x : Nat) : byteOf 0 x = x % 256 := by
  rw [byteOf_eq]; simp

theorem byteOf_one (x : Nat) : byteOf 1 x = x / 2 ^ 8 % 256 := by
  rw [byteOf_eq]

theorem byteOf_two (x : Nat) : byteOf 2 x = x / 2 ^ 16 % 256 := by
  rw [byteOf_eq]

theorem byteOf_three (x : Nat) : byteOf 3 x = x / 2 ^ 24 % 256 := by
  rw [byteOf_eq]

/-- The bytes of `Swap32 x` are the bytes of `x` in reverse order. -/
theorem byteOf_Swap32 (x : Nat) :
    byteOf 0 (Swap32 x) = byteOf 3 x ∧ byteOf 1 (Swap32 x) = byteOf 2 x ∧
    byteOf 2 (Swap32 x) = byteOf 1 x ∧ byteOf 3 (Swap32 x) = byteOf 0 x := by
  have h0 : x % 256 < 256 := by omega
  have h1 : x / 2 ^ 8 % 256 < 256 := by omega
  have h2 : x / 2 ^ 16 % 256 < 256 := by omega
  have h3 : x / 2 ^ 24 % 256 < 256 := by omega
  simp only [byteOf_zero, byteOf_one, byteOf_two, byteOf_three, Swap32_eq_bytes x]
  exact bytes_of_pack _ _ _ _ h3 h2 h1 h0

/-- The bytes of `Swap16 x` are the bytes of `x` exchanged. -/
theorem byteOf_Swap16 (x : Nat) (hx : x < 2 ^ 16) :
    byteOf 0 (Swap16 x) = byteOf 1 x ∧ byteOf 1 (Swap16 x) = byteOf 0 x := by
  have hh : x / 2 ^ 8 < 256 := by omega
  have hl : x % 256 < 256 := by omega
  have hb : x / 2 ^ 8 % 256 = x / 2 ^ 8 := Nat.mod_eq_of_lt hh
  simp only [byteOf_zero, byteOf_one, Swap16_eq_bytes x hx, hb]
  generalize x / 2 ^ 8 = h at *
  generalize x % 256 = l at *
  constructor <;> omega

theorem toBits_ofBits (e : Endian) (b : Nat) (hb : b < 2 ^ 32) :
    F32.toBits e (F32.ofBits e b) = b := by
  simp only [F32.toBits, F32.ofBits]
  exact loadU32_storeU32 e b hb

theorem ofBits_toBits (e : Endian) (f : F32) : F32.ofBits e (F32.toBits e f) = f := by
  obtain ⟨m⟩ := f
  simp only [F32.toBits, F32.ofBits, storeU32_loadU32]

theorem toBits_lt (e : Endian) (f : F32) : F32.toBits e f < 2 ^ 32 :=
  loadU32_lt e f.mem

theorem x87LoadStore_lt (b : Nat) (hb : b < 2 ^ 32) : x87LoadStore b < 2 ^ 32 := by
  unfold x87LoadStore
  split
  · exact Nat.or_lt_two_pow hb (by decide)
  · exact hb

/-- A return that is bit-exact, or whose value is no signalling NaN, hands the
caller the same bits. -/
theorem retBits_eq_self (abi : FloatRet) (b : Nat)
    (h : abi = FloatRet.bitExact ∨ isSignallingNaN b = false) : retBits abi b = b := by
  cases abi with
  | bitExact => rfl
  | x87 =>
    rcases h with h | h
    · cases h
    · simp only [retBits, x87LoadStore, h, Bool.false_eq_true, if_false]

theorem toBits_returnF32 (abi : FloatRet) (e : Endian) (f : F32) :
    F32.toBits e (returnF32 abi e f) = retBits abi (F32.toBits e f) := by
  cases abi with
  | bitExact => rfl
  | x87 =>
    simp only [returnF32, retBits]
    exact toBits_ofBits e _ (x87LoadStore_lt _ (toBits_lt e f))

/-- The bit pattern the caller gets from `SwapF32 f`: `Swap32` of the bit pattern
of `f`, as carried back by the calling convention. -/
theorem toBits_SwapF32 (abi : FloatRet) (e : Endian) (f : F32) :
    F32.toBits e (SwapF32 abi e f) = retBits abi (Swap32 (F32.toBits e f)) := by
  simp only [SwapF32]
  rw [toBits_returnF32]
  simp only [F32.toBits]
  rw [loadU32_storeU32 e _ (Swap32_lt _)]

/-- Two `float` objects with the same bit pattern have the same storage. -/
theorem F32_eq_of_toBits (e : Endian) (f g : F32) (h : F32.toBits e f = F32.toBits e g) :
    f = g := by
  rw [← ofBits_toBits e f, ← ofBits_toBits e g, h]

/-! ## The claims -/

/-- C1: for every 32-bit unsigned `x`, `Swap32 x` is the full byte reversal of `x`:
the result is again a 32-bit value, byte `i` of `Swap32 x` is byte `3 - i` of `x`
for `i = 0, 1, 2, 3` (bits 24-31 go to bits 0-7, bits 16-23 to bits 8-15, bits 8-15
to bits 16-23 and bits 0-7 to bits 24-31), and `Swap32 0x12345678 = 0x78563412`. -/
theorem Swap32_byte_reversal (x : Nat) (_hx : x < 2 ^ 32) :
    Swap32 x < 2 ^ 32 ∧
    (∀ i, i < 4 → byteOf i (Swap32 x) = byteOf (3 - i) x) ∧
    (∀ j, j < 8 →
      (Swap32 x).testBit j = x.testBit (24 + j) ∧
      (Swap32 x).testBit (8 + j) = x.testBit (16 + j) ∧
      (Swap32 x).testBit (16 + j) = x.testBit (8 + j) ∧
      (Swap32 x).testBit (24 + j) = x.testBit j) ∧
    Swap32 0x12345678 = 0x78563412 := by
  obtain ⟨b0, b1, b2, b3⟩ := byteOf_Swap32 x
  refine ⟨Swap32_lt x, ?_, ?_, by decide⟩
  · intro i hi
    interval_cases i
    · exact b0
    · exact b1
    · exact b2
    · exact b3
  · intro j hj
    have t0 := testBit_byteOf 0 (Swap32 x) j hj
    have t1 := testBit_byteOf 1 (Swap32 x) j hj
    have t2 := testBit_byteOf 2 (Swap32 x) j hj
    have t3 := testBit_byteOf 3 (Swap32 x) j hj
    rw [b0, testBit_byteOf 3 x j hj] at t0
    rw [b1, testBit_byteOf 2 x j hj] at t1
    rw [b2, testBit_byteOf 1 x j hj] at t2
    rw [b3, testBit_byteOf 0 x j hj] at t3
    simp only [Nat.mul_zero, Nat.zero_add, Nat.mul_one] at t0 t1 t2 t3
    exact ⟨t0.symm, t1.symm, t2.symm, t3.symm⟩

theorem Swap32_byte_reversal_witness :
    0xA1B2C3D4 < 2 ^ 32 ∧
    Swap32 0xA1B2C3D4 < 2 ^ 32 ∧
    (∀ i, i < 4 → byteOf i (Swap32 0xA1B2C3D4) = byteOf (3 - i) 0xA1B2C3D4) ∧
    (∀ j, j < 8 →
      (Swap32 0xA1B2C3D4).testBit j = (0xA1B2C3D4 : Nat).testBit (24 + j) ∧
      (Swap32 0xA1B2C3D4).testBit (8 + j) = (0xA1B2C3D4 : Nat).testBit (16 + j) ∧
      (Swap32 0xA1B2C3D4).testBit (16 + j) = (0xA1B2C3D4 : Nat).testBit (8 + j) ∧
      (Swap32 0xA1B2C3D4).testBit (24 + j) = (0xA1B2C3D4 : Nat).testBit j) ∧
    Swap32 0x12345678 = 0x78563412 :=
  ⟨by decide, Swap32_byte_reversal 0xA1B2C3D4 (by decide)⟩

/-- C2: for every 16-bit unsigned `x`, the promoted `int` value `(x << 8) | (x >> 8)`
does not overflow, `Swap16 x` is that value reduced modulo `2 ^ 16`, and it is the
two-byte reversal of `x`: its low byte is the high byte of `x` and its high byte is
the low byte of `x`.  Also `Swap16 0x1234 = 0x3412`. -/
theorem Swap16_byte_reversal (x : Nat) (hx : x < 2 ^ 16) :
    ((x <<< 8) ||| (x >>> 8)) < 2 ^ 31 ∧
    Swap16 x = ((x <<< 8) ||| (x >>> 8)) % 2 ^ 16 ∧
    Swap16 x < 2 ^ 16 ∧
    byteOf 0 (Swap16 x) = byteOf 1 x ∧
    byteOf 1 (Swap16 x) = byteOf 0 x ∧
    Swap16 0x1234 = 0x3412 := by
  obtain ⟨b0, b1⟩ := byteOf_Swap16 x hx
  refine ⟨?_, rfl, Swap16_lt x, b0, b1, by decide⟩
  rw [Nat.or_comm, Nat.shiftRight_eq_div_pow, or_shiftLeft_eq_add (by omega)]
  omega

theorem Swap16_byte_reversal_witness :
    0xBEEF < 2 ^ 16 ∧
    ((0xBEEF <<< 8) ||| (0xBEEF >>> 8)) < 2 ^ 31 ∧
    Swap16 0xBEEF = ((0xBEEF <<< 8) ||| (0xBEEF >>> 8)) % 2 ^ 16 ∧
    Swap16 0xBEEF < 2 ^ 16 ∧
    byteOf 0 (Swap16 0xBEEF) = byteOf 1 0xBEEF ∧
    byteOf 1 (Swap16 0xBEEF) = byteOf 0 0xBEEF ∧
    Swap16 0x1234 = 0x3412 :=
  ⟨by decide, Swap16_byte_reversal 0xBEEF (by decide)⟩

/-- C4: `Swap32` is an involution on 32-bit unsigned values. -/
theorem Swap32_involution (x : Nat) (hx : x < 2 ^ 32) : Swap32 (Swap32 x) = x :=
  Swap32_Swap32 x hx

theorem Swap32_involution_witness :
    0x12345678 < 2 ^ 32 ∧ Swap32 (Swap32 0x12345678) = 0x12345678 :=
  ⟨by decide, Swap32_involution 0x12345678 (by decide)⟩

/-- C5: `Swap16` is an involution on 16-bit unsigned values, each application
truncating its result to 16 bits. -/
theorem Swap16_involution (x : Nat) (hx : x < 2 ^ 16) : Swap16 (Swap16 x) = x :=
  Swap16_Swap16 x hx

theorem Swap16_involution_witness :
    0x1234 < 2 ^ 16 ∧ Swap16 (Swap16 0x1234) = 0x1234 :=
  ⟨by decide, Swap16_involution 0x1234 (by decide)⟩

/-- C6 (as amended): for every 32-bit pattern `b`, reinterpreting `b` as a float,
applying `SwapF32` twice and reading the bits back yields `b`, and the float object
is restored byte for byte, provided the float return is bit-exact or neither `b`
nor `Swap32 b` is a signalling NaN. -/
theorem SwapF32_involution (abi : FloatRet) (e : Endian) (b : Nat) (hb : b < 2 ^ 32)
    (hret : abi = FloatRet.bitExact ∨
      (isSignallingNaN b = false ∧ isSignallingNaN (Swap32 b) = false)) :
    F32.toBits e (SwapF32 abi e (SwapF32 abi e (F32.ofBits e b))) = b ∧
    SwapF32 abi e (SwapF32 abi e (F32.ofBits e b)) = F32.ofBits e b := by
  have h1 : abi = FloatRet.bitExact ∨ isSignallingNaN (Swap32 b) = false :=
    hret.imp id (fun h => h.2)
  have h2 : abi = FloatRet.bitExact ∨ isSignallingNaN b = false :=
    hret.imp id (fun h => h.1)
  have hbits : F32.toBits e (SwapF32 abi e (SwapF32 abi e (F32.ofBits e b))) = b := by
    rw [toBits_SwapF32, toBits_SwapF32, toBits_ofBits e b hb,
      retBits_eq_self abi _ h1, Swap32_Swap32 b hb]
    exact retBits_eq_self abi _ h2
  refine ⟨hbits, F32_eq_of_toBits e _ _ ?_⟩
  rw [hbits, toBits_ofBits e b hb]

theorem SwapF32_involution_witness :
    0xFF800000 < 2 ^ 32 ∧
    (FloatRet.x87 = FloatRet.bitExact ∨
      (isSignallingNaN 0xFF800000 = false ∧ isSignallingNaN (Swap32 0xFF800000) = false)) ∧
    F32.toBits Endian.big (SwapF32 FloatRet.x87 Endian.big (SwapF32 FloatRet.x87 Endian.big
      (F32.ofBits Endian.big 0xFF800000))) = 0xFF800000 ∧
    SwapF32 FloatRet.x87 Endian.big (SwapF32 FloatRet.x87 Endian.big
      (F32.ofBits Endian.big 0xFF800000)) = F32.ofBits Endian.big 0xFF800000 :=
  ⟨by decide, Or.inr ⟨by decide, by decide⟩,
    SwapF32_involution FloatRet.x87 Endian.big 0xFF800000 (by decide)
      (Or.inr ⟨by decide, by decide⟩)⟩

/-- C6 as stated fails when the result is returned through the x87 register
stack: `b = 0x7F800001` is a signalling NaN; the first call yields `0x0100807F`,
the second computes `0x7F800001` again and the caller receives `0x7FC00001`. -/
theorem SwapF32_involution_counterexample :
    0x7F800001 < 2 ^ 32 ∧
    F32.toBits Endian.little
        (SwapF32 FloatRet.x87 Endian.little (F32.ofBits Endian.little 0x7F800001))
      = 0x0100807F ∧
    F32.toBits Endian.little (SwapF32 FloatRet.x87 Endian.little
        (SwapF32 FloatRet.x87 Endian.little (F32.ofBits Endian.little 0x7F800001)))
      = 0x7FC00001 ∧
    F32.toBits Endian.little (SwapF32 FloatRet.x87 Endian.little
        (SwapF32 FloatRet.x87 Endian.little (F32.ofBits Endian.little 0x7F800001)))
      ≠ 0x7F800001 := by
  refine ⟨by decide, by decide, by decide, by decide⟩

/-- C7: `0x3F800000` is the IEEE-754 bit pattern of `1.0f`, the bit pattern of
`SwapF32 1.0f` equals `Swap32 0x3F800000`, and that value is `0x0000803F`; this
holds for either host byte order and either way of returning the float. -/
theorem SwapF32_one (abi : FloatRet) (e : Endian) :
    ieee754Bits 0 127 0 = 0x3F800000 ∧
    F32.toBits e (oneF32 e) = 0x3F800000 ∧
    F32.toBits e (SwapF32 abi e (oneF32 e)) = Swap32 0x3F800000 ∧
    Swap32 0x3F800000 = 0x0000803F := by
  have hone : ieee754Bits 0 127 0 = 0x3F800000 := by decide
  have hbits : F32.toBits e (oneF32 e) = 0x3F800000 := by
    unfold oneF32
    rw [hone]
    exact toBits_ofBits e _ (by decide)
  refine ⟨hone, hbits, ?_, by decide⟩
  rw [toBits_SwapF32, hbits]
  exact retBits_eq_self abi _ (Or.inr (by decide))

/-- C8: `0x00000000` and `0xFFFFFFFF` are fixed points of `Swap32`. -/
theorem Swap32_fixed_points :
    Swap32 0x00000000 = 0x00000000 ∧ Swap32 0xFFFFFFFF = 0xFFFFFFFF := by
  constructor <;> decide

/-- C9: for every 32-bit unsigned `x`, `Swap32 x` is `Swap16` of the low half placed
in the high half (the left shift done in 32 bits) or-ed with `Swap16` of the high
half. -/
theorem Swap32_eq_Swap16_halves (x : Nat) (hx : x < 2 ^ 32) :
    Swap32 x = ((Swap16 (x &&& 0xFFFF) <<< 16) % 2 ^ 32) ||| Swap16 (x >>> 16) := by
  have hmask : x &&& 0xFFFF = x % 2 ^ 16 := Nat.and_pow_two_sub_one_eq_mod x 16
  have hlo : x % 2 ^ 16 < 2 ^ 16 := Nat.mod_lt _ (by norm_num)
  have hhi : x / 2 ^ 16 < 2 ^ 16 := by omega
  have hs := Swap16_lt (x % 2 ^ 16)
  rw [hmask, Nat.shiftRight_eq_div_pow, Nat.or_comm,
    Nat.shiftLeft_eq, Nat.mod_eq_of_lt (by omega), ← Nat.shiftLeft_eq,
    or_shiftLeft_eq_add (Swap16_lt _), Swap32_eq_bytes,
    Swap16_eq_bytes _ hlo, Swap16_eq_bytes _ hhi]
  omega

theorem Swap32_eq_Swap16_halves_witness :
    0x12345678 < 2 ^ 32 ∧
    Swap32 0x12345678
      = ((Swap16 (0x12345678 &&& 0xFFFF) <<< 16) % 2 ^ 32) ||| Swap16 (0x12345678 >>> 16) :=
  ⟨by decide, Swap32_eq_Swap16_halves 0x12345678 (by decide)⟩

/-- C10: the fixed points of the swaps are exactly the byte palindromes: a 32-bit
`x` satisfies `Swap32 x = x` iff its bytes 0 and 3 agree and its bytes 1 and 2
agree, and a 16-bit `y` satisfies `Swap16 y = y` iff its two bytes agree. -/
theorem swap_fixed_iff_palindrome (x y : Nat) (hx : x < 2 ^ 32) (hy : y < 2 ^ 16) :
    (Swap32 x = x ↔ byteOf 0 x = byteOf 3 x ∧ byteOf 1 x = byteOf 2 x) ∧
    (Swap16 y = y ↔ byteOf 0 y = byteOf 1 y) := by
  constructor
  · have hsplit : x = x % 256 + 2 ^ 8 * (x / 2 ^ 8 % 256) + 2 ^ 16 * (x / 2 ^ 16 % 256)
        + 2 ^ 24 * (x / 2 ^ 24 % 256) := by omega
    have h0 : x % 256 < 256 := by omega
    have h1 : x / 2 ^ 8 % 256 < 256 := by omega
    have h2 : x / 2 ^ 16 % 256 < 256 := by omega
    have h3 : x / 2 ^ 24 % 256 < 256 := by omega
    rw [Swap32_eq_bytes, byteOf_zero, byteOf_one, byteOf_two, byteOf_three]
    generalize x % 256 = a at *
    generalize x / 2 ^ 8 % 256 = b at *
    generalize x / 2 ^ 16 % 256 = c at *
    generalize x / 2 ^ 24 % 256 = d at *
    omega
  · rw [Swap16_eq_bytes y hy, byteOf_zero, byteOf_one]
    omega

theorem swap_fixed_iff_palindrome_witness :
    0xAB1221AB < 2 ^ 32 ∧ 0x7F7F < 2 ^ 16 ∧
    (Swap32 0xAB1221AB = 0xAB1221AB ↔
      byteOf 0 0xAB1221AB = byteOf 3 0xAB1221AB ∧ byteOf 1 0xAB1221AB = byteOf 2 0xAB1221AB) ∧
    (Swap16 0x7F7F = 0x7F7F ↔ byteOf 0 0x7F7F = byteOf 1 0x7F7F) :=
  ⟨by decide, by decide, swap_fixed_iff_palindrome 0xAB1221AB 0x7F7F (by decide) (by decide)⟩

end Quilt
